import Mathlib

set_option autoImplicit false

namespace Voice2Value

/-! Shallow embedding of `src/tools/run_pipeline.py`.

The script has two pieces of logic: `merge_audio_files`, which normalizes a
directory of audio files to wav, concatenates them into `merged.wav` and
removes the intermediates, and the token-provisioning part of `main`, which
resolves a HuggingFace token from three environment variables and writes it
to a `.env` file.

The filesystem is modelled as the single directory the merge operates on: a
list of entries in scan order.  Audio content is either decodable audio (a
list of samples, preserved by decode/re-encode and appended by
concatenation) or malformed data on which decoding raises. -/

/-- Python's `str.lower()`; on the ASCII extensions the script compares it
agrees with `Char.toLower` character by character. -/
def pyLower (s : String) : String := ⟨s.data.map Char.toLower⟩

/-- A file name inside the directory: stem plus extension (without the dot).
`Path.with_suffix(".wav")` replaces `ext` by `"wav"`; `Path.suffix.lower()`
is `pyLower ext`. -/
structure FileName where
  stem : String
  ext : String
deriving DecidableEq

/-- Audio file content: decodable audio, or malformed data (decoding it
raises a decode error in `pydub`). -/
inductive Content where
  | audio (samples : List Int)
  | bad
deriving DecidableEq

/-- One directory entry (a regular file). -/
structure Entry where
  name : FileName
  content : Content
deriving DecidableEq

/-- The directory: its entries in scan order. -/
abbrev Dir := List Entry

/-- Names of the entries of a directory, in scan order. -/
def dirNames (d : Dir) : List FileName := d.map Entry.name

/-- `Path.is_file()` / `Path.exists()` for a name in the directory. -/
def isFile (d : Dir) (f : FileName) : Bool := d.any (fun e => e.name = f)

/-- Content currently stored under a name (the `Content.bad` default is never
reached: every use is guarded by `isFile`). -/
def readFile (d : Dir) (f : FileName) : Content :=
  match d.find? (fun e => e.name = f) with
  | some e => e.content
  | none => Content.bad

/-- `Path.unlink()`: remove the entry with the given name. -/
def unlink (d : Dir) (f : FileName) : Dir := d.filter (fun e => e.name ≠ f)

/-- Write a file: overwrite any entry of that name with fresh content. -/
def writeFile (d : Dir) (f : FileName) (c : Content) : Dir :=
  unlink d f ++ [⟨f, c⟩]

/-- The errors the script can propagate from the merge. -/
inductive Err where
  | decodeError
  | concatenationError
deriving DecidableEq

/-- The fixed merged-output name `merged.wav` (`examples_dir / "merged.wav"`). -/
def mergedName : FileName := ⟨"merged", "wav"⟩

/-- `f.with_suffix(".wav")`. -/
def wavTarget (f : FileName) : FileName := ⟨f.stem, "wav"⟩

/-- State carried through the normalization loop: the directory and the
`wav_files` working list. -/
structure MergeSt where
  dir : Dir
  wavFiles : List FileName
deriving DecidableEq

/-- One iteration of the normalization loop of `merge_audio_files`:

    if f.suffix.lower() != ".wav" and f.is_file():
        wav_path = f.with_suffix(".wav")
        try:
            AudioSegment.from_file(f).export(wav_path, format="wav")
        finally:
            f.unlink()
        wav_files.append(wav_path)
    elif f.is_file():
        wav_files.append(f)

A decode failure still unlinks `f` (the `finally`) and then propagates. -/
def normStep (st : MergeSt) (f : FileName) : MergeSt × Option Err :=
  if pyLower f.ext ≠ "wav" ∧ isFile st.dir f = true then
    match readFile st.dir f with
    | Content.audio a =>
        (⟨unlink (writeFile st.dir (wavTarget f) (Content.audio a)) f,
          st.wavFiles ++ [wavTarget f]⟩, none)
    | Content.bad =>
        (⟨unlink st.dir f, st.wavFiles⟩, some Err.decodeError)
  else if isFile st.dir f = true then
    (⟨st.dir, st.wavFiles ++ [f]⟩, none)
  else
    (st, none)

/-- The normalization loop over the scan snapshot; the first error aborts the
loop and the whole operation. -/
def normLoop : MergeSt → List FileName → MergeSt × Option Err
  | st, [] => (st, none)
  | st, f :: fs =>
      match normStep st f with
      | (st', none) => normLoop st' fs
      | (st', some e) => (st', some e)

/-- Concatenation of audio contents; malformed input poisons the result. -/
def combineContents : List Content → Content
  | [] => Content.audio []
  | c :: cs =>
      match c, combineContents cs with
      | Content.audio a, Content.audio b => Content.audio (a ++ b)
      | _, _ => Content.bad

/-- Modelled from the spec: the external collaborator
`vanpy.utils.utils.concat_audio_files_in_dir` (not part of this repository).
Per the spec it iterates the directory's current contents, gathers the files
in the target format, concatenates their audio into one file at the output
path (overwriting it), and fails with a `ConcatenationError` when the
directory has zero eligible files. -/
def concat_audio_files_in_dir (d : Dir) (output : FileName) : Dir × Option Err :=
  let eligible := d.filter (fun e => pyLower e.name.ext = "wav")
  if eligible.isEmpty then
    (d, some Err.concatenationError)
  else
    (writeFile d output (combineContents (eligible.map (·.content))), none)

/-- One iteration of the cleanup loop:

    if f != output and f.exists():
        f.unlink()
-/
def cleanupStep (output : FileName) (d : Dir) (f : FileName) : Dir :=
  if f ≠ output ∧ isFile d f = true then unlink d f else d

/-- The cleanup loop over the `wav_files` working list. -/
def cleanupLoop (output : FileName) : Dir → List FileName → Dir
  | d, [] => d
  | d, f :: fs => cleanupLoop output (cleanupStep output d f) fs

/-- `merge_audio_files(examples_dir)`: normalize every file in the scan
snapshot, concatenate the directory into `merged.wav`, then clean up the
working list.  Returns the final directory state together with the error
that propagated, if any. -/
def merge_audio_files (d : Dir) : Dir × Option Err :=
  match normLoop ⟨d, []⟩ (dirNames d) with
  | (st, some e) => (st.dir, some e)
  | (st, none) =>
      match concat_audio_files_in_dir st.dir mergedName with
      | (d2, some e) => (d2, some e)
      | (d2, none) => (cleanupLoop mergedName d2 st.wavFiles, none)

/-! Token provisioning in `main`:

    hf_token = os.getenv("HUGGINGFACE_ACCESS_TOKEN") or os.getenv("hf") or os.getenv("HF_TOKEN")
    if hf_token:
        with open(repo_root / ".env", "w", encoding="utf-8") as env_file:
            env_file.write(f"huggingface_ACCESS_TOKEN={hf_token}\n")

The environment is a map from variable names to `Option String` (`none` =
unset, what `os.getenv` returns as `None`).  Python truthiness makes both
`None` and the empty string falsy. -/

/-- Python truthiness of a `str | None` value. -/
def truthy : Option String → Bool
  | none => false
  | some s => s ≠ ""

/-- Python's `or` on `str | None` values: the left operand when truthy,
otherwise the right operand. -/
def pyOr (a b : Option String) : Option String := if truthy a = true then a else b

/-- The token lookup chain of `main`, in source order. -/
def resolveToken (env : String → Option String) : Option String :=
  pyOr (pyOr (env "HUGGINGFACE_ACCESS_TOKEN") (env "hf")) (env "HF_TOKEN")

/-- The credential-file step of `main`: the `.env` file content after the
step, given its content before (`none` = no file).  When the resolved token
is truthy the file is (over)written with the single line
`huggingface_ACCESS_TOKEN=<token>\n`; otherwise the step is skipped. -/
def credentialStep (env : String → Option String) (envFile : Option String) :
    Option String :=
  let t := resolveToken env
  if truthy t = true then
    some ("huggingface_ACCESS_TOKEN=" ++ t.getD "" ++ "\n")
  else
    envFile

/-! ### Basic filesystem lemmas -/

theorem mem_dirNames (d : Dir) (f : FileName) :
    f ∈ dirNames d ↔ ∃ e ∈ d, e.name = f := by
  simp [dirNames]

theorem isFile_iff (d : Dir) (f : FileName) :
    isFile d f = true ↔ f ∈ dirNames d := by
  rw [mem_dirNames]
  simp [isFile, List.any_eq_true]

theorem dirNames_cons (e : Entry) (t : Dir) :
    dirNames (e :: t) = e.name :: dirNames t := rfl

theorem dirNames_append (d₁ d₂ : Dir) :
    dirNames (d₁ ++ d₂) = dirNames d₁ ++ dirNames d₂ := by
  simp [dirNames]

theorem unlink_nil (g : FileName) : unlink [] g = [] := rfl

theorem unlink_cons_keep (e : Entry) (t : Dir) (g : FileName) (h : e.name ≠ g) :
    unlink (e :: t) g = e :: unlink t g := by
  simp [unlink, List.filter_cons, h]

theorem unlink_cons_drop (e : Entry) (t : Dir) (g : FileName) (h : e.name = g) :
    unlink (e :: t) g = unlink t g := by
  simp [unlink, List.filter_cons, h]

theorem readFile_cons_self (e : Entry) (t : Dir) (f : FileName) (h : e.name = f) :
    readFile (e :: t) f = e.content := by
  simp [readFile, List.find?_cons, h]

theorem readFile_cons_ne (e : Entry) (t : Dir) (f : FileName) (h : e.name ≠ f) :
    readFile (e :: t) f = readFile t f := by
  simp [readFile, List.find?_cons, h]

theorem readFile_of_not_mem (d : Dir) (f : FileName) (h : f ∉ dirNames d) :
    readFile d f = Content.bad := by
  induction d with
  | nil => rfl
  | cons e t ih =>
      rw [dirNames_cons, List.mem_cons] at h
      push_neg at h
      rw [readFile_cons_ne e t f (fun hc => h.1 hc.symm)]
      exact ih h.2

theorem readFile_append_right (d₁ d₂ : Dir) (f : FileName)
    (h : f ∉ dirNames d₁) : readFile (d₁ ++ d₂) f = readFile d₂ f := by
  induction d₁ with
  | nil => rfl
  | cons e t ih =>
      rw [dirNames_cons, List.mem_cons] at h
      push_neg at h
      rw [List.cons_append, readFile_cons_ne e _ f (fun hc => h.1 hc.symm)]
      exact ih h.2

theorem readFile_append_left (d₁ d₂ : Dir) (f : FileName)
    (h : f ∈ dirNames d₁) : readFile (d₁ ++ d₂) f = readFile d₁ f := by
  induction d₁ with
  | nil => cases h
  | cons e t ih =>
      by_cases he : e.name = f
      · rw [List.cons_append, readFile_cons_self e _ f he, readFile_cons_self e t f he]
      · rw [dirNames_cons, List.mem_cons] at h
        rcases h with h | h
        · exact absurd h.symm he
        · rw [List.cons_append, readFile_cons_ne e _ f he, readFile_cons_ne e t f he]
          exact ih h

theorem mem_dirNames_unlink (d : Dir) (g f : FileName) :
    f ∈ dirNames (unlink d g) ↔ f ∈ dirNames d ∧ f ≠ g := by
  induction d with
  | nil => simp [unlink_nil, dirNames]
  | cons e t ih =>
      by_cases hg : e.name = g
      · rw [unlink_cons_drop e t g hg, ih, dirNames_cons, List.mem_cons]
        constructor
        · rintro ⟨h1, h2⟩; exact ⟨Or.inr h1, h2⟩
        · rintro ⟨h1 | h1, h2⟩
          · exact absurd (h1.trans hg) h2
          · exact ⟨h1, h2⟩
      · rw [unlink_cons_keep e t g hg, dirNames_cons, dirNames_cons,
          List.mem_cons, List.mem_cons]
        constructor
        · rintro (rfl | h)
          · exact ⟨Or.inl rfl, fun hc => hg hc⟩
          · exact ⟨Or.inr (ih.mp h).1, (ih.mp h).2⟩
        · rintro ⟨rfl | h1, h2⟩
          · exact Or.inl rfl
          · exact Or.inr (ih.mpr ⟨h1, h2⟩)

theorem not_mem_dirNames_unlink_self (d : Dir) (g : FileName) :
    g ∉ dirNames (unlink d g) := by
  intro h
  exact ((mem_dirNames_unlink d g g).mp h).2 rfl

theorem mem_dirNames_writeFile (d : Dir) (g : FileName) (c : Content) (f : FileName) :
    f ∈ dirNames (writeFile d g c) ↔ (f ∈ dirNames d ∧ f ≠ g) ∨ f = g := by
  rw [writeFile, dirNames_append, List.mem_append, mem_dirNames_unlink]
  simp [dirNames]

theorem mem_entry_unlink (d : Dir) (g : FileName) (e : Entry) :
    e ∈ unlink d g ↔ e ∈ d ∧ e.name ≠ g := by
  simp [unlink, List.mem_filter]

theorem mem_entry_writeFile (d : Dir) (g : FileName) (c : Content) (e : Entry) :
    e ∈ writeFile d g c ↔ (e ∈ d ∧ e.name ≠ g) ∨ e = ⟨g, c⟩ := by
  simp [writeFile, mem_entry_unlink]

theorem nodup_dirNames_unlink (d : Dir) (g : FileName)
    (h : (dirNames d).Nodup) : (dirNames (unlink d g)).Nodup := by
  induction d with
  | nil => simp [unlink_nil, dirNames]
  | cons e t ih =>
      rw [dirNames_cons, List.nodup_cons] at h
      by_cases hg : e.name = g
      · rw [unlink_cons_drop e t g hg]
        exact ih h.2
      · rw [unlink_cons_keep e t g hg, dirNames_cons, List.nodup_cons]
        exact ⟨fun hc => h.1 ((mem_dirNames_unlink t g e.name).mp hc).1, ih h.2⟩

theorem nodup_dirNames_writeFile (d : Dir) (g : FileName) (c : Content)
    (h : (dirNames d).Nodup) : (dirNames (writeFile d g c)).Nodup := by
  rw [writeFile, dirNames_append]
  refine List.Nodup.append (nodup_dirNames_unlink d g h) ?_ ?_
  · exact List.nodup_singleton g
  · intro x hx hx'
    have hxg : x = g := by simpa [dirNames] using hx'
    exact not_mem_dirNames_unlink_self d g (hxg ▸ hx)

theorem readFile_unlink_ne (d : Dir) (g f : FileName) (h : f ≠ g) :
    readFile (unlink d g) f = readFile d f := by
  induction d with
  | nil => rfl
  | cons e t ih =>
      by_cases hg : e.name = g
      · rw [unlink_cons_drop e t g hg,
          readFile_cons_ne e t f (fun hc => h ((hc.symm).trans hg))]
        exact ih
      · rw [unlink_cons_keep e t g hg]
        by_cases he : e.name = f
        · rw [readFile_cons_self e _ f he, readFile_cons_self e t f he]
        · rw [readFile_cons_ne e _ f he, readFile_cons_ne e t f he]
          exact ih

theorem readFile_writeFile_self (d : Dir) (g : FileName) (c : Content) :
    readFile (writeFile d g c) g = c := by
  rw [writeFile, readFile_append_right _ _ _ (not_mem_dirNames_unlink_self d g)]
  exact readFile_cons_self ⟨g, c⟩ [] g rfl

theorem readFile_writeFile_ne (d : Dir) (g : FileName) (c : Content) (f : FileName)
    (h : f ≠ g) : readFile (writeFile d g c) f = readFile d f := by
  rw [writeFile]
  by_cases hf : f ∈ dirNames (unlink d g)
  · rw [readFile_append_left _ _ _ hf]
    exact readFile_unlink_ne d g f h
  · rw [readFile_append_right _ _ _ hf]
    have h1 : readFile [(⟨g, c⟩ : Entry)] f = Content.bad := by
      rw [readFile_cons_ne ⟨g, c⟩ [] f (fun hc => h hc.symm)]
      rfl
    have h2 : f ∉ dirNames d := fun hc => hf ((mem_dirNames_unlink d g f).mpr ⟨hc, h⟩)
    rw [h1, readFile_of_not_mem d f h2]

theorem readFile_of_mem_nodup (d : Dir) (e : Entry)
    (hnd : (dirNames d).Nodup) (he : e ∈ d) : readFile d e.name = e.content := by
  induction d with
  | nil => cases he
  | cons e0 t ih =>
      rw [dirNames_cons, List.nodup_cons] at hnd
      rcases List.mem_cons.mp he with rfl | ht
      · exact readFile_cons_self e t e.name rfl
      · by_cases h0 : e0.name = e.name
        · exact absurd (h0 ▸ (mem_dirNames t e.name).mpr ⟨e, ht, rfl⟩) hnd.1
        · rw [readFile_cons_ne e0 t e.name h0]
          exact ih hnd.2 ht

/-! ### Normalization-loop lemmas -/

theorem pyLower_wav : pyLower "wav" = "wav" := by decide

theorem ext_ne_wav_of_pyLower {g : FileName} (h : pyLower g.ext ≠ "wav") :
    g.ext ≠ "wav" := fun hc => h (hc ▸ pyLower_wav)

theorem ne_wavTarget_of_ext (g f : FileName) (h : pyLower g.ext ≠ "wav") :
    g ≠ wavTarget f := by
  intro hc
  exact ext_ne_wav_of_pyLower h (congrArg FileName.ext hc)

theorem wavTarget_ext_pyLower (f : FileName) : pyLower (wavTarget f).ext = "wav" :=
  pyLower_wav

/-- Case analysis on one normalization step: conversion of a decodable
non-wav file, decode failure, a wav file appended to the working list, or a
missing file skipped. -/
theorem normStep_elim (st : MergeSt) (f : FileName) (P : MergeSt × Option Err → Prop)
    (hconv : ∀ a, pyLower f.ext ≠ "wav" → isFile st.dir f = true →
      readFile st.dir f = Content.audio a →
      P (⟨unlink (writeFile st.dir (wavTarget f) (Content.audio a)) f,
          st.wavFiles ++ [wavTarget f]⟩, none))
    (hbad : pyLower f.ext ≠ "wav" → isFile st.dir f = true →
      readFile st.dir f = Content.bad →
      P (⟨unlink st.dir f, st.wavFiles⟩, some Err.decodeError))
    (hwav : pyLower f.ext = "wav" → isFile st.dir f = true →
      P (⟨st.dir, st.wavFiles ++ [f]⟩, none))
    (hskip : isFile st.dir f = false → P (st, none)) :
    P (normStep st f) := by
  unfold normStep
  by_cases hf : isFile st.dir f = true
  · by_cases hext : pyLower f.ext = "wav"
    · rw [if_neg (fun hc => hc.1 hext), if_pos hf]
      exact hwav hext hf
    · rw [if_pos ⟨hext, hf⟩]
      cases hread : readFile st.dir f with
      | audio a => exact hconv a hext hf hread
      | bad => exact hbad hext hf hread
  · rw [if_neg (fun hc => hf hc.2), if_neg hf]
    exact hskip (Bool.not_eq_true _ ▸ hf)

theorem normStep_wavFiles_mono (st : MergeSt) (f : FileName) :
    st.wavFiles ⊆ (normStep st f).1.wavFiles := by
  apply normStep_elim st f
    (fun r => st.wavFiles ⊆ r.1.wavFiles)
  · intro a _ _ _; exact List.subset_append_left _ _
  · intro _ _ _; exact List.Subset.refl _
  · intro _ _; exact List.subset_append_left _ _
  · intro _; exact List.Subset.refl _

theorem normStep_isFile_preserved (st : MergeSt) (f g : FileName) (hg : g ≠ f)
    (h : isFile st.dir g = true) : isFile (normStep st f).1.dir g = true := by
  apply normStep_elim st f (fun r => isFile r.1.dir g = true)
  · intro a _ _ _
    rw [isFile_iff, mem_dirNames_unlink, mem_dirNames_writeFile]
    rw [isFile_iff] at h
    by_cases ht : g = wavTarget f
    · exact ⟨Or.inr ht, hg⟩
    · exact ⟨Or.inl ⟨h, ht⟩, hg⟩
  · intro _ _ _
    rw [isFile_iff, mem_dirNames_unlink]
    exact ⟨(isFile_iff _ _).mp h, hg⟩
  · intro _ _; exact h
  · intro _; exact h

theorem normStep_wav_isFile_preserved (st : MergeSt) (f g : FileName)
    (hgext : pyLower g.ext = "wav")
    (h : isFile st.dir g = true) : isFile (normStep st f).1.dir g = true := by
  apply normStep_elim st f (fun r => isFile r.1.dir g = true)
  · intro a hext _ _
    have hg : g ≠ f := fun hc => hext (hc ▸ hgext)
    rw [isFile_iff, mem_dirNames_unlink, mem_dirNames_writeFile]
    rw [isFile_iff] at h
    by_cases ht : g = wavTarget f
    · exact ⟨Or.inr ht, hg⟩
    · exact ⟨Or.inl ⟨h, ht⟩, hg⟩
  · intro hext _ _
    have hg : g ≠ f := fun hc => hext (hc ▸ hgext)
    rw [isFile_iff, mem_dirNames_unlink]
    exact ⟨(isFile_iff _ _).mp h, hg⟩
  · intro _ _; exact h
  · intro _; exact h

theorem normStep_readFile_preserved (st : MergeSt) (f g : FileName) (hg : g ≠ f)
    (hgext : pyLower g.ext ≠ "wav") :
    readFile (normStep st f).1.dir g = readFile st.dir g := by
  apply normStep_elim st f (fun r => readFile r.1.dir g = readFile st.dir g)
  · intro a _ _ _
    rw [readFile_unlink_ne _ _ _ hg,
      readFile_writeFile_ne _ _ _ _ (ne_wavTarget_of_ext g f hgext)]
  · intro _ _ _
    exact readFile_unlink_ne _ _ _ hg
  · intro _ _; rfl
  · intro _; rfl

theorem normStep_nodup (st : MergeSt) (f : FileName)
    (h : (dirNames st.dir).Nodup) : (dirNames (normStep st f).1.dir).Nodup := by
  apply normStep_elim st f (fun r => (dirNames r.1.dir).Nodup)
  · intro a _ _ _
    exact nodup_dirNames_unlink _ _ (nodup_dirNames_writeFile _ _ _ h)
  · intro _ _ _
    exact nodup_dirNames_unlink _ _ h
  · intro _ _; exact h
  · intro _; exact h

theorem normStep_names_superset (st : MergeSt) (f n : FileName)
    (h : n ∈ dirNames (normStep st f).1.dir) :
    n ∈ dirNames st.dir ∨ n = wavTarget f := by
  revert h
  apply normStep_elim st f
    (fun r => n ∈ dirNames r.1.dir → n ∈ dirNames st.dir ∨ n = wavTarget f)
  · intro a _ _ _ h
    rcases (mem_dirNames_writeFile _ _ _ _).mp ((mem_dirNames_unlink _ _ _).mp h).1 with
      ⟨h1, _⟩ | h1
    · exact Or.inl h1
    · exact Or.inr h1
  · intro _ _ _ h
    exact Or.inl ((mem_dirNames_unlink _ _ _).mp h).1
  · intro _ _ h; exact Or.inl h
  · intro _ h; exact Or.inl h

theorem normStep_entry_cases (st : MergeSt) (f : FileName) (e : Entry)
    (h : e ∈ (normStep st f).1.dir) :
    e ∈ st.dir ∨ ∃ a, e = ⟨wavTarget f, Content.audio a⟩ := by
  revert h
  apply normStep_elim st f
    (fun r => e ∈ r.1.dir → e ∈ st.dir ∨ ∃ a, e = ⟨wavTarget f, Content.audio a⟩)
  · intro a _ _ _ h
    rcases (mem_entry_writeFile _ _ _ _).mp ((mem_entry_unlink _ _ _).mp h).1 with
      ⟨h1, _⟩ | h1
    · exact Or.inl h1
    · exact Or.inr ⟨a, h1⟩
  · intro _ _ _ h
    exact Or.inl ((mem_entry_unlink _ _ _).mp h).1
  · intro _ _ h; exact Or.inl h
  · intro _ h; exact Or.inl h

theorem normLoop_nil (st : MergeSt) : normLoop st [] = (st, none) := rfl

theorem normLoop_cons (st : MergeSt) (f : FileName) (fs : List FileName) :
    normLoop st (f :: fs) =
      match normStep st f with
      | (st', none) => normLoop st' fs
      | (st', some e) => (st', some e) := rfl

/-- On a successful run, every iteration succeeded. -/
theorem normLoop_cons_ok (st st' : MergeSt) (f : FileName) (fs : List FileName)
    (h : normLoop st (f :: fs) = (st', none)) :
    (normStep st f).2 = none ∧ normLoop (normStep st f).1 fs = (st', none) := by
  rw [normLoop_cons] at h
  cases hs : normStep st f with
  | mk st1 e =>
      rw [hs] at h
      cases e with
      | none => exact ⟨rfl, h⟩
      | some err => exact absurd (congrArg Prod.snd h) (by simp)

theorem normLoop_append (st : MergeSt) (as bs : List FileName) :
    normLoop st (as ++ bs) =
      match normLoop st as with
      | (st', none) => normLoop st' bs
      | (st', some e) => (st', some e) := by
  induction as generalizing st with
  | nil => rfl
  | cons f fs ih =>
      rw [List.cons_append, normLoop_cons, normLoop_cons]
      cases hs : normStep st f with
      | mk st1 e =>
          cases e with
          | none => exact ih st1
          | some err => rfl

theorem normLoop_isFile_preserved (ns : List FileName) (st : MergeSt) (g : FileName)
    (hg : g ∉ ns) (h : isFile st.dir g = true) :
    isFile (normLoop st ns).1.dir g = true := by
  induction ns generalizing st with
  | nil => exact h
  | cons f fs ih =>
      have hgf : g ≠ f := fun hc => hg (hc ▸ List.mem_cons_self f fs)
      have hgfs : g ∉ fs := fun hc => hg (List.mem_cons_of_mem f hc)
      have hstep := normStep_isFile_preserved st f g hgf h
      rw [normLoop_cons]
      cases hs : normStep st f with
      | mk st1 e =>
          rw [hs] at hstep
          cases e with
          | none => exact ih st1 hgfs hstep
          | some err => exact hstep

theorem normLoop_wav_isFile_preserved (ns : List FileName) (st : MergeSt)
    (g : FileName) (hgext : pyLower g.ext = "wav")
    (h : isFile st.dir g = true) :
    isFile (normLoop st ns).1.dir g = true := by
  induction ns generalizing st with
  | nil => exact h
  | cons f fs ih =>
      have hstep := normStep_wav_isFile_preserved st f g hgext h
      rw [normLoop_cons]
      cases hs : normStep st f with
      | mk st1 e =>
          rw [hs] at hstep
          cases e with
          | none => exact ih st1 hstep
          | some err => exact hstep

theorem normLoop_readFile_preserved (ns : List FileName) (st : MergeSt)
    (g : FileName) (hg : g ∉ ns) (hgext : pyLower g.ext ≠ "wav") :
    readFile (normLoop st ns).1.dir g = readFile st.dir g := by
  induction ns generalizing st with
  | nil => rfl
  | cons f fs ih =>
      have hgf : g ≠ f := fun hc => hg (hc ▸ List.mem_cons_self f fs)
      have hgfs : g ∉ fs := fun hc => hg (List.mem_cons_of_mem f hc)
      have hstep := normStep_readFile_preserved st f g hgf hgext
      rw [normLoop_cons]
      cases hs : normStep st f with
      | mk st1 e =>
          rw [hs] at hstep
          cases e with
          | none => rw [← hstep]; exact ih st1 hgfs
          | some err => exact hstep

theorem normLoop_nodup (ns : List FileName) (st : MergeSt)
    (h : (dirNames st.dir).Nodup) : (dirNames (normLoop st ns).1.dir).Nodup := by
  induction ns generalizing st with
  | nil => exact h
  | cons f fs ih =>
      have hstep := normStep_nodup st f h
      rw [normLoop_cons]
      cases hs : normStep st f with
      | mk st1 e =>
          rw [hs] at hstep
          cases e with
          | none => exact ih st1 hstep
          | some err => exact hstep

theorem normLoop_names_superset (ns : List FileName) (st : MergeSt) (n : FileName)
    (h : n ∈ dirNames (normLoop st ns).1.dir) :
    n ∈ dirNames st.dir ∨ ∃ m ∈ ns, n = wavTarget m := by
  induction ns generalizing st with
  | nil => exact Or.inl h
  | cons f fs ih =>
      rw [normLoop_cons] at h
      cases hs : normStep st f with
      | mk st1 e =>
          rw [hs] at h
          have hstep := normStep_names_superset st f n
          rw [hs] at hstep
          cases e with
          | none =>
              rcases ih st1 h with h1 | ⟨m, hm, rfl⟩
              · rcases hstep h1 with h2 | h2
                · exact Or.inl h2
                · exact Or.inr ⟨f, List.mem_cons_self f fs, h2⟩
              · exact Or.inr ⟨m, List.mem_cons_of_mem f hm, rfl⟩
          | some err =>
              rcases hstep h with h2 | h2
              · exact Or.inl h2
              · exact Or.inr ⟨f, List.mem_cons_self f fs, h2⟩

/-- If the content under a name is malformed and the name exists, the
malformed entry itself is in the directory. -/
theorem mem_of_readFile_bad (d : Dir) (f : FileName) (hf : isFile d f = true)
    (hb : readFile d f = Content.bad) : (⟨f, Content.bad⟩ : Entry) ∈ d := by
  induction d with
  | nil => cases hf
  | cons e t ih =>
      by_cases he : e.name = f
      · rw [readFile_cons_self e t f he] at hb
        have : e = ⟨f, Content.bad⟩ := by
          cases e with
          | mk n c => cases he; cases hb; rfl
        exact this ▸ List.mem_cons_self e t
      · rw [readFile_cons_ne e t f he] at hb
        have hf' : isFile t f = true := by
          rw [isFile_iff] at hf ⊢
          rcases List.mem_cons.mp hf with h1 | h1
          · exact absurd h1.symm he
          · exact h1
        exact List.mem_cons_of_mem e (ih hf' hb)

/-- A step on a name whose current content is not malformed cannot fail. -/
theorem normStep_no_error (st : MergeSt) (f : FileName)
    (h : isFile st.dir f = true → readFile st.dir f ≠ Content.bad) :
    (normStep st f).2 = none := by
  apply normStep_elim st f (fun r => r.2 = none)
  · intro a _ _ _; rfl
  · intro _ hf hread; exact absurd hread (h hf)
  · intro _ _; rfl
  · intro _; rfl

/-- If no name still to be processed refers to malformed content, the
normalization loop completes without error. -/
theorem normLoop_no_error (ns : List FileName) (st : MergeSt)
    (h : ∀ e ∈ st.dir, e.content = Content.bad → e.name ∉ ns) :
    (normLoop st ns).2 = none := by
  induction ns generalizing st with
  | nil => rfl
  | cons f fs ih =>
      rw [normLoop_cons]
      have hok : (normStep st f).2 = none := by
        apply normStep_no_error
        intro hf hread
        exact h ⟨f, Content.bad⟩ (mem_of_readFile_bad st.dir f hf hread) rfl
          (List.mem_cons_self f fs)
      cases hs : normStep st f with
      | mk st1 e =>
          rw [hs] at hok
          cases e with
          | some err => cases hok
          | none =>
              apply ih st1
              intro e he hbad
              have hcase := normStep_entry_cases st f e (by rw [hs]; exact he)
              rcases hcase with h1 | ⟨a, rfl⟩
              · exact fun hc => h e h1 hbad (List.mem_cons_of_mem f hc)
              · cases hbad

/-- A successful conversion step makes the wav target exist. -/
theorem normStep_creates_target (st : MergeSt) (f : FileName)
    (hext : pyLower f.ext ≠ "wav") (hf : isFile st.dir f = true)
    (hok : (normStep st f).2 = none) :
    isFile (normStep st f).1.dir (wavTarget f) = true := by
  revert hok
  apply normStep_elim st f
    (fun r => r.2 = none → isFile r.1.dir (wavTarget f) = true)
  · intro a _ _ _ _
    rw [isFile_iff, mem_dirNames_unlink, mem_dirNames_writeFile]
    exact ⟨Or.inr rfl, (ne_wavTarget_of_ext f f hext).symm⟩
  · intro _ _ _ hok; cases hok
  · intro hw _ _; exact absurd hw hext
  · intro hf' _; rw [hf'] at hf; cases hf

/-- On a successful normalization pass, every existing non-wav file in the
processed list ends up converted: its wav target exists afterwards. -/
theorem normLoop_converts (ns : List FileName) (st st' : MergeSt)
    (hns : ns.Nodup) (h : normLoop st ns = (st', none)) :
    ∀ n ∈ ns, pyLower n.ext ≠ "wav" → isFile st.dir n = true →
      isFile st'.dir (wavTarget n) = true := by
  induction ns generalizing st with
  | nil => intro n hn; cases hn
  | cons f fs ih =>
      obtain ⟨hok, hrest⟩ := normLoop_cons_ok st st' f fs h
      rw [List.nodup_cons] at hns
      intro n hn hnext hnf
      rcases List.mem_cons.mp hn with rfl | hn'
      · have htgt := normStep_creates_target st n hnext hnf hok
        have := normLoop_wav_isFile_preserved fs (normStep st n).1 (wavTarget n)
          (wavTarget_ext_pyLower n) htgt
        rw [hrest] at this
        exact this
      · have hne : n ≠ f := fun hc => hns.1 (hc ▸ hn')
        have hpres := normStep_isFile_preserved st f n hne hnf
        exact ih (normStep st f).1 hns.2 hrest n hn' hnext hpres

/-- The key success invariant: after a successful full normalization pass over
the scan snapshot, every file in the directory is in the working list. -/
theorem normLoop_inv (ns : List FileName) (st st' : MergeSt)
    (h : normLoop st ns = (st', none))
    (hinv : ∀ n ∈ dirNames st.dir, n ∈ st.wavFiles ∨ n ∈ ns) :
    ∀ n ∈ dirNames st'.dir, n ∈ st'.wavFiles := by
  induction ns generalizing st with
  | nil =>
      rw [normLoop_nil] at h
      cases h
      intro n hn
      rcases hinv n hn with h1 | h1
      · exact h1
      · cases h1
  | cons f fs ih =>
      obtain ⟨_, hrest⟩ := normLoop_cons_ok st st' f fs h
      apply ih (normStep st f).1 hrest
      apply normStep_elim st f
        (fun r => ∀ n ∈ dirNames r.1.dir, n ∈ r.1.wavFiles ∨ n ∈ fs)
      · intro a hext hf hread n hn
        obtain ⟨hn1, hnf⟩ := (mem_dirNames_unlink _ _ _).mp hn
        rcases (mem_dirNames_writeFile _ _ _ _).mp hn1 with ⟨hn2, _⟩ | rfl
        · rcases hinv n hn2 with hw | hns
          · exact Or.inl (List.mem_append_left _ hw)
          · rcases List.mem_cons.mp hns with rfl | h'
            · exact absurd rfl hnf
            · exact Or.inr h'
        · exact Or.inl (List.mem_append_right _ (List.mem_singleton.mpr rfl))
      · intro hext hf hread n hn
        obtain ⟨hn1, hnf⟩ := (mem_dirNames_unlink _ _ _).mp hn
        rcases hinv n hn1 with hw | hns
        · exact Or.inl hw
        · rcases List.mem_cons.mp hns with rfl | h'
          · exact absurd rfl hnf
          · exact Or.inr h'
      · intro hext hf n hn
        rcases hinv n hn with hw | hns
        · exact Or.inl (List.mem_append_left _ hw)
        · rcases List.mem_cons.mp hns with rfl | h'
          · exact Or.inl (List.mem_append_right _ (List.mem_singleton.mpr rfl))
          · exact Or.inr h'
      · intro hf n hn
        rcases hinv n hn with hw | hns
        · exact Or.inl hw
        · rcases List.mem_cons.mp hns with rfl | h'
          · have hmem : isFile st.dir n = true := (isFile_iff _ _).mpr hn
            rw [hf] at hmem
            cases hmem
          · exact Or.inr h'

/-! ### Cleanup-loop lemmas -/

theorem cleanupStep_not_isFile (output : FileName) (d : Dir) (f : FileName)
    (h : isFile d f = false) : cleanupStep output d f = d := by
  unfold cleanupStep
  rw [if_neg]
  intro hc
  rw [h] at hc
  exact Bool.false_ne_true hc.2

theorem cleanupStep_output (output : FileName) (d : Dir) :
    cleanupStep output d output = d := by
  unfold cleanupStep
  rw [if_neg]
  intro hc
  exact hc.1 rfl

theorem mem_dirNames_cleanupLoop (output : FileName) (ws : List FileName)
    (d : Dir) (n : FileName)
    (h : n ∈ dirNames (cleanupLoop output d ws)) : n ∈ dirNames d := by
  induction ws generalizing d with
  | nil => exact h
  | cons f fs ih =>
      have h1 := ih (cleanupStep output d f) h
      unfold cleanupStep at h1
      by_cases hc : f ≠ output ∧ isFile d f = true
      · rw [if_pos hc] at h1
        exact ((mem_dirNames_unlink _ _ _).mp h1).1
      · rw [if_neg hc] at h1
        exact h1

theorem output_mem_cleanupLoop (output : FileName) (ws : List FileName)
    (d : Dir) (h : output ∈ dirNames d) :
    output ∈ dirNames (cleanupLoop output d ws) := by
  induction ws generalizing d with
  | nil => exact h
  | cons f fs ih =>
      apply ih (cleanupStep output d f)
      unfold cleanupStep
      by_cases hc : f ≠ output ∧ isFile d f = true
      · rw [if_pos hc]
        exact (mem_dirNames_unlink _ _ _).mpr ⟨h, fun he => hc.1 he.symm⟩
      · rw [if_neg hc]
        exact h

theorem not_mem_cleanupLoop (output : FileName) (ws : List FileName)
    (d : Dir) (f : FileName) (hf : f ∈ ws) (hne : f ≠ output) :
    f ∉ dirNames (cleanupLoop output d ws) := by
  induction ws generalizing d with
  | nil => cases hf
  | cons g gs ih =>
      rcases List.mem_cons.mp hf with rfl | hf'
      · intro hmem
        have h2 := mem_dirNames_cleanupLoop output gs (cleanupStep output d f) f hmem
        unfold cleanupStep at h2
        by_cases hex : isFile d f = true
        · rw [if_pos ⟨hne, hex⟩] at h2
          exact ((mem_dirNames_unlink _ _ _).mp h2).2 rfl
        · rw [if_neg (fun hc => hex hc.2)] at h2
          exact hex ((isFile_iff _ _).mpr h2)
      · exact ih (cleanupStep output d g) hf'

theorem nodup_cleanupLoop (output : FileName) (ws : List FileName)
    (d : Dir) (h : (dirNames d).Nodup) :
    (dirNames (cleanupLoop output d ws)).Nodup := by
  induction ws generalizing d with
  | nil => exact h
  | cons f fs ih =>
      apply ih (cleanupStep output d f)
      unfold cleanupStep
      by_cases hc : f ≠ output ∧ isFile d f = true
      · rw [if_pos hc]
        exact nodup_dirNames_unlink d f h
      · rw [if_neg hc]
        exact h

/-! ### Merge-level lemmas -/

/-- A successful concatenation writes the combined content to the output. -/
theorem concat_ok (d : Dir) (output : FileName) (d2 : Dir)
    (h : concat_audio_files_in_dir d output = (d2, none)) :
    ∃ c, d2 = writeFile d output c := by
  unfold concat_audio_files_in_dir at h
  by_cases he : (d.filter (fun e => pyLower e.name.ext = "wav")).isEmpty = true
  · rw [if_pos he] at h
    exact absurd (congrArg Prod.snd h) (by simp)
  · rw [if_neg he] at h
    exact ⟨_, (congrArg Prod.fst h).symm⟩

theorem eq_singleton_of_forall_eq (l : List FileName) (x : FileName)
    (hx : x ∈ l) (hall : ∀ y ∈ l, y = x) (hnd : l.Nodup) : l = [x] := by
  cases l with
  | nil => cases hx
  | cons a t =>
      have ha : a = x := hall a (List.mem_cons_self a t)
      subst ha
      cases t with
      | nil => rfl
      | cons b u =>
          rw [List.nodup_cons] at hnd
          have hb : b = a := hall b (List.mem_cons_of_mem a (List.mem_cons_self b u))
          exact absurd (hb ▸ List.mem_cons_self b u) hnd.1

/-- Shape of a successful run: the directory ends up containing exactly the
merged output. -/
theorem merge_ok_dirNames (d d' : Dir) (hnd : (dirNames d).Nodup)
    (h : merge_audio_files d = (d', none)) : dirNames d' = [mergedName] := by
  unfold merge_audio_files at h
  cases hn : normLoop ⟨d, []⟩ (dirNames d) with
  | mk st e =>
      rw [hn] at h
      cases e with
      | some err =>
          replace h : (st.dir, some err) = (d', none) := h
          exact absurd (congrArg Prod.snd h) (by simp)
      | none =>
          replace h : (match concat_audio_files_in_dir st.dir mergedName with
              | (d2, some e) => (d2, some e)
              | (d2, none) => (cleanupLoop mergedName d2 st.wavFiles, none)) =
              (d', none) := h
          cases hc : concat_audio_files_in_dir st.dir mergedName with
          | mk d2 e2 =>
              rw [hc] at h
              cases e2 with
              | some err =>
                  replace h : (d2, some err) = (d', none) := h
                  exact absurd (congrArg Prod.snd h) (by simp)
              | none =>
                  replace h : (cleanupLoop mergedName d2 st.wavFiles, none) =
                      (d', none) := h
                  have hd' : d' = cleanupLoop mergedName d2 st.wavFiles :=
                    (congrArg Prod.fst h).symm
                  obtain ⟨c, rfl⟩ := concat_ok st.dir mergedName d2 hc
                  have hinv := normLoop_inv (dirNames d) ⟨d, []⟩ st hn
                    (fun n hn' => Or.inr hn')
                  have hndst : (dirNames st.dir).Nodup := by
                    have := normLoop_nodup (dirNames d) ⟨d, []⟩ hnd
                    rw [hn] at this
                    exact this
                  have hnd2 : (dirNames (writeFile st.dir mergedName c)).Nodup :=
                    nodup_dirNames_writeFile st.dir mergedName c hndst
                  subst hd'
                  apply eq_singleton_of_forall_eq
                  · apply output_mem_cleanupLoop
                    exact (mem_dirNames_writeFile _ _ _ _).mpr (Or.inr rfl)
                  · intro n hmem
                    by_contra hne
                    have h1 := mem_dirNames_cleanupLoop _ _ _ _ hmem
                    rcases (mem_dirNames_writeFile _ _ _ _).mp h1 with ⟨h2, _⟩ | h2
                    · exact not_mem_cleanupLoop mergedName st.wavFiles
                        (writeFile st.dir mergedName c) n (hinv n h2) hne hmem
                    · exact hne h2
                  · exact nodup_cleanupLoop _ _ _ hnd2

theorem dir_of_dirNames_singleton (d : Dir) (x : FileName)
    (h : dirNames d = [x]) : ∃ c, d = [⟨x, c⟩] := by
  cases d with
  | nil => cases h
  | cons e t =>
      rw [dirNames_cons] at h
      injection h with h1 h2
      cases t with
      | nil => exact ⟨e.content, by rw [← h1]⟩
      | cons b u => cases h2

/-- A run on a directory holding only the merged output from a previous run:
the single wav file is gathered, concatenated into a fresh `merged.wav`, and
kept. -/
theorem merge_single_merged (c : Content) :
    merge_audio_files [⟨mergedName, c⟩] =
      ([⟨mergedName, combineContents [c]⟩], none) := rfl

/-! ### Claims -/

/-- C1: for every directory satisfying the precondition (modelled as a
directory with distinct file names), if `merge_audio_files` returns
successfully then the directory contains exactly one file, the merged
output at the fixed name `merged.wav`, and every other file that existed at
call time has been removed. -/
theorem merge_success_exactly_merged (d d' : Dir) (hnd : (dirNames d).Nodup)
    (h : merge_audio_files d = (d', none)) :
    dirNames d' = [mergedName] ∧
    ∀ n ∈ dirNames d, n ≠ mergedName → n ∉ dirNames d' := by
  have hm := merge_ok_dirNames d d' hnd h
  refine ⟨hm, ?_⟩
  intro n _ hne hc
  rw [hm] at hc
  exact hne (List.mem_singleton.mp hc)

theorem merge_success_exactly_merged_witness :
    dirNames [⟨mergedName, Content.audio [1]⟩] = [mergedName] ∧
    ∀ n ∈ dirNames [(⟨⟨"a", "wav"⟩, Content.audio [1]⟩ : Entry)], n ≠ mergedName →
      n ∉ dirNames [⟨mergedName, Content.audio [1]⟩] :=
  merge_success_exactly_merged [⟨⟨"a", "wav"⟩, Content.audio [1]⟩]
    [⟨mergedName, Content.audio [1]⟩] (by decide) (by decide)

/-- C2 counterexample: a stale `merged.wav` is not overwritten before the
merge and is treated as a concatenation input: its prior samples appear in
the new merged output, and changing only the stale content changes the
result of the run. -/
theorem stale_merged_treated_as_input_cex :
    (merge_audio_files
        [⟨mergedName, Content.audio [1]⟩, ⟨⟨"a", "wav"⟩, Content.audio [2]⟩]).1
      = [⟨mergedName, Content.audio [1, 2]⟩] ∧
    (merge_audio_files
        [⟨mergedName, Content.audio [5]⟩, ⟨⟨"a", "wav"⟩, Content.audio [2]⟩]).1
      = [⟨mergedName, Content.audio [5, 2]⟩] ∧
    merge_audio_files
        [⟨mergedName, Content.audio [1]⟩, ⟨⟨"a", "wav"⟩, Content.audio [2]⟩]
      ≠ merge_audio_files
        [⟨mergedName, Content.audio [5]⟩, ⟨⟨"a", "wav"⟩, Content.audio [2]⟩] :=
  ⟨by decide, by decide, by decide⟩

/-- C2 (amended): a pre-existing `merged.wav` is overwritten by the merge
(replaced with the freshly concatenated result, not appended to in place),
but its prior content is included as one of the concatenation inputs; on
success exactly one merged output remains in the directory. -/
theorem stale_merged_overwritten_amended :
    (∀ d d', (dirNames d).Nodup → mergedName ∈ dirNames d →
      merge_audio_files d = (d', none) → dirNames d' = [mergedName]) ∧
    (merge_audio_files
        [⟨mergedName, Content.audio [1]⟩, ⟨⟨"a", "wav"⟩, Content.audio [2]⟩]).1
      = [⟨mergedName, Content.audio [1, 2]⟩] := by
  constructor
  · intro d d' hnd _ h
    exact merge_ok_dirNames d d' hnd h
  · decide

theorem stale_merged_overwritten_amended_witness :
    dirNames [⟨mergedName, Content.audio [1, 2]⟩] = [mergedName] :=
  stale_merged_overwritten_amended.1
    [⟨mergedName, Content.audio [1]⟩, ⟨⟨"a", "wav"⟩, Content.audio [2]⟩]
    [⟨mergedName, Content.audio [1, 2]⟩] (by decide) (by decide) (by decide)

/-- C3: a decode failure on any file aborts the whole operation with a
decode error that propagates to the caller; no merged output is produced
(when none pre-existed and no conversion target collides with it), the
source file of the failed conversion is still deleted, and files converted
before the failing one stay converted. -/
theorem decode_failure_aborts (pre post : Dir) (f : FileName)
    (hnd : (dirNames (pre ++ ⟨f, Content.bad⟩ :: post)).Nodup)
    (hext : pyLower f.ext ≠ "wav")
    (hpre : ∀ e ∈ pre, e.content ≠ Content.bad) :
    ∃ d', merge_audio_files (pre ++ ⟨f, Content.bad⟩ :: post) =
        (d', some Err.decodeError) ∧
      f ∉ dirNames d' ∧
      (∀ e ∈ pre, pyLower e.name.ext ≠ "wav" → wavTarget e.name ∈ dirNames d') ∧
      (mergedName ∉ dirNames (pre ++ ⟨f, Content.bad⟩ :: post) →
        (∀ e ∈ pre, e.name.stem ≠ "merged") → mergedName ∉ dirNames d') := by
  set d : Dir := pre ++ ⟨f, Content.bad⟩ :: post with hd
  have hnames : dirNames d = dirNames pre ++ f :: dirNames post := by
    rw [hd, dirNames_append, dirNames_cons]
  have hmemf : (⟨f, Content.bad⟩ : Entry) ∈ d := by
    rw [hd]; exact List.mem_append_right _ (List.mem_cons_self _ _)
  have hndsplit : (dirNames pre ++ f :: dirNames post).Nodup := hnames ▸ hnd
  rw [List.nodup_append] at hndsplit
  have hfns1 : f ∉ dirNames pre := fun hc =>
    hndsplit.2.2 hc (List.mem_cons_self _ _)
  have hloop1ok : (normLoop ⟨d, []⟩ (dirNames pre)).2 = none := by
    apply normLoop_no_error
    intro e he hbad hc
    rw [hd] at he
    rcases List.mem_append.mp he with hePre | heMid
    · exact hpre e hePre hbad
    · rcases List.mem_cons.mp heMid with rfl | hePost
      · exact hfns1 hc
      · exact hndsplit.2.2 hc
          (List.mem_cons_of_mem f ((mem_dirNames post e.name).mpr ⟨e, hePost, rfl⟩))
  cases hloop1 : normLoop ⟨d, []⟩ (dirNames pre) with
  | mk st1 e1 =>
      rw [hloop1] at hloop1ok
      cases e1 with
      | some err => cases hloop1ok
      | none =>
          have hisf : isFile st1.dir f = true := by
            have hp := normLoop_isFile_preserved (dirNames pre) ⟨d, []⟩ f hfns1
              ((isFile_iff _ _).mpr ((mem_dirNames d f).mpr ⟨⟨f, Content.bad⟩, hmemf, rfl⟩))
            rw [hloop1] at hp
            exact hp
          have hreadf : readFile st1.dir f = Content.bad := by
            have hp := normLoop_readFile_preserved (dirNames pre) ⟨d, []⟩ f hfns1 hext
            rw [hloop1] at hp
            rw [hp]
            exact readFile_of_mem_nodup d ⟨f, Content.bad⟩ hnd hmemf
          have hstep : normStep st1 f =
              (⟨unlink st1.dir f, st1.wavFiles⟩, some Err.decodeError) := by
            unfold normStep
            rw [if_pos ⟨hext, hisf⟩, hreadf]
          have hfull : normLoop ⟨d, []⟩ (dirNames d) =
              (⟨unlink st1.dir f, st1.wavFiles⟩, some Err.decodeError) := by
            rw [hnames, normLoop_append, hloop1]
            show normLoop st1 (f :: dirNames post) = _
            rw [normLoop_cons, hstep]
          have hmerge : merge_audio_files d =
              (unlink st1.dir f, some Err.decodeError) := by
            unfold merge_audio_files
            rw [hfull]
          refine ⟨unlink st1.dir f, hmerge, ?_, ?_, ?_⟩
          · exact fun hc => ((mem_dirNames_unlink _ _ _).mp hc).2 rfl
          · intro e hePre heext
            have hconv := normLoop_converts (dirNames pre) ⟨d, []⟩ st1 hndsplit.1 hloop1
              e.name ((mem_dirNames pre e.name).mpr ⟨e, hePre, rfl⟩) heext
              ((isFile_iff _ _).mpr ((mem_dirNames d e.name).mpr
                ⟨e, by rw [hd]; exact List.mem_append_left _ hePre, rfl⟩))
            rw [mem_dirNames_unlink]
            exact ⟨(isFile_iff _ _).mp hconv, (ne_wavTarget_of_ext f e.name hext).symm⟩
          · intro hmout hstems hc
            have h1 := ((mem_dirNames_unlink _ _ _).mp hc).1
            have h2 := normLoop_names_superset (dirNames pre) ⟨d, []⟩ mergedName
            rw [hloop1] at h2
            rcases h2 h1 with h3 | ⟨m, hm, h3⟩
            · exact hmout h3
            · obtain ⟨e, hePre, hem⟩ := (mem_dirNames pre m).mp hm
              have hms : m.stem = "merged" := (congrArg FileName.stem h3).symm
              exact hstems e hePre (by rw [hem, hms])

theorem decode_failure_aborts_witness :
    ∃ d', merge_audio_files
        ([⟨⟨"a", "mp3"⟩, Content.audio [1]⟩] ++
          ⟨⟨"b", "mp3"⟩, Content.bad⟩ :: [⟨⟨"c", "wav"⟩, Content.audio [3]⟩]) =
        (d', some Err.decodeError) ∧
      (⟨"b", "mp3"⟩ : FileName) ∉ dirNames d' ∧
      (∀ e ∈ [(⟨⟨"a", "mp3"⟩, Content.audio [1]⟩ : Entry)],
        pyLower e.name.ext ≠ "wav" → wavTarget e.name ∈ dirNames d') ∧
      (mergedName ∉ dirNames
          ([⟨⟨"a", "mp3"⟩, Content.audio [1]⟩] ++
            ⟨⟨"b", "mp3"⟩, Content.bad⟩ :: [⟨⟨"c", "wav"⟩, Content.audio [3]⟩]) →
        (∀ e ∈ [(⟨⟨"a", "mp3"⟩, Content.audio [1]⟩ : Entry)], e.name.stem ≠ "merged") →
        mergedName ∉ dirNames d') :=
  decode_failure_aborts [⟨⟨"a", "mp3"⟩, Content.audio [1]⟩]
    [⟨⟨"c", "wav"⟩, Content.audio [3]⟩] ⟨"b", "mp3"⟩
    (by decide) (by decide) (by decide)

/-- C5: running the merge on an empty directory propagates a
`ConcatenationError` (zero eligible input files) and leaves the directory
unchanged (still empty). -/
theorem merge_empty_dir_error :
    merge_audio_files [] = ([], some Err.concatenationError) := rfl

/-- C6: the cleanup pass removes every working-set file other than the
merged-output name, and its per-file step is a guarded no-op on the output
name and on files that no longer exist (deleting a missing file never
happens, hence never raises). -/
theorem cleanup_removes_working_set (output : FileName) (d : Dir)
    (ws : List FileName) :
    (∀ f ∈ ws, f ≠ output → f ∉ dirNames (cleanupLoop output d ws)) ∧
    (∀ f, isFile d f = false → cleanupStep output d f = d) ∧
    cleanupStep output d output = d :=
  ⟨fun f hf hne => not_mem_cleanupLoop output ws d f hf hne,
   fun f h => cleanupStep_not_isFile output d f h,
   cleanupStep_output output d⟩

theorem cleanup_removes_working_set_witness :
    (⟨"a", "wav"⟩ : FileName) ∉ dirNames (cleanupLoop mergedName
      [⟨⟨"a", "wav"⟩, Content.audio [1]⟩] [⟨"a", "wav"⟩]) :=
  (cleanup_removes_working_set mergedName [⟨⟨"a", "wav"⟩, Content.audio [1]⟩]
      [⟨"a", "wav"⟩]).1 ⟨"a", "wav"⟩ (by decide) (by decide)

/-- C7: the merge is idempotent on directory contents: after a successful
run, running it again on the resulting directory (which holds only
`merged.wav`) succeeds again and leaves exactly one merged file. -/
theorem merge_rerun_idempotent (d d' : Dir) (hnd : (dirNames d).Nodup)
    (h : merge_audio_files d = (d', none)) :
    ∃ d'', merge_audio_files d' = (d'', none) ∧ dirNames d'' = [mergedName] := by
  obtain ⟨c, rfl⟩ := dir_of_dirNames_singleton d' mergedName (merge_ok_dirNames d d' hnd h)
  exact ⟨[⟨mergedName, combineContents [c]⟩], merge_single_merged c, rfl⟩

theorem merge_rerun_idempotent_witness :
    ∃ d'', merge_audio_files [⟨mergedName, Content.audio [1]⟩] = (d'', none) ∧
      dirNames d'' = [mergedName] :=
  merge_rerun_idempotent [⟨⟨"a", "wav"⟩, Content.audio [1]⟩]
    [⟨mergedName, Content.audio [1]⟩] (by decide) (by decide)

/-- Helper: a truthy operand short-circuits Python `or`. -/
theorem pyOr_of_truthy (a b : Option String) (h : truthy a = true) :
    pyOr a b = a := by
  unfold pyOr
  rw [if_pos h]

/-- Helper: a falsy operand falls through Python `or`. -/
theorem pyOr_of_falsy (a b : Option String) (h : truthy a = false) :
    pyOr a b = b := by
  unfold pyOr
  have hne : ¬ truthy a = true := by rw [h]; exact Bool.false_ne_true
  rw [if_neg hne]

/-- C4: the token environment variables are consulted in the fixed priority
order `HUGGINGFACE_ACCESS_TOKEN`, then `hf`, then `HF_TOKEN`, first truthy
match wins; with only `HF_TOKEN=abc123` set, the credential file content
becomes exactly `huggingface_ACCESS_TOKEN=abc123\n`, overwriting whatever
was there. -/
theorem token_env_priority :
    (∀ env : String → Option String, truthy (env "HUGGINGFACE_ACCESS_TOKEN") = true →
      resolveToken env = env "HUGGINGFACE_ACCESS_TOKEN") ∧
    (∀ env : String → Option String, truthy (env "HUGGINGFACE_ACCESS_TOKEN") = false →
      truthy (env "hf") = true → resolveToken env = env "hf") ∧
    (∀ env : String → Option String, truthy (env "HUGGINGFACE_ACCESS_TOKEN") = false →
      truthy (env "hf") = false → resolveToken env = env "HF_TOKEN") ∧
    (∀ (env : String → Option String) (envFile : Option String),
      env "HUGGINGFACE_ACCESS_TOKEN" = none → env "hf" = none →
      env "HF_TOKEN" = some "abc123" →
      credentialStep env envFile = some "huggingface_ACCESS_TOKEN=abc123\n") := by
  refine ⟨?_, ?_, ?_, ?_⟩
  · intro env h
    unfold resolveToken
    rw [pyOr_of_truthy _ _ h, pyOr_of_truthy _ _ h]
  · intro env h1 h2
    unfold resolveToken
    rw [pyOr_of_falsy _ _ h1, pyOr_of_truthy _ _ h2]
  · intro env h1 h2
    unfold resolveToken
    rw [pyOr_of_falsy _ _ h1, pyOr_of_falsy _ _ h2]
  · intro env envFile h1 h2 h3
    unfold credentialStep resolveToken
    rw [h1, h2, h3]
    rfl

theorem token_env_priority_witness :
    credentialStep (fun v => if v = "HF_TOKEN" then some "abc123" else none)
      (some "prev") = some "huggingface_ACCESS_TOKEN=abc123\n" :=
  token_env_priority.2.2.2 (fun v => if v = "HF_TOKEN" then some "abc123" else none)
    (some "prev") (by decide) (by decide) (by decide)

/-- C8: when none of the three token environment variables is set, the
credential-file step is skipped silently: the file state is left untouched
and no error arises. -/
theorem no_token_skips_credential_file (env : String → Option String)
    (envFile : Option String)
    (h1 : env "HUGGINGFACE_ACCESS_TOKEN" = none) (h2 : env "hf" = none)
    (h3 : env "HF_TOKEN" = none) :
    credentialStep env envFile = envFile := by
  unfold credentialStep resolveToken
  rw [h1, h2, h3]
  rfl

theorem no_token_skips_credential_file_witness :
    credentialStep (fun _ => none) (some "keep") = some "keep" :=
  no_token_skips_credential_file (fun _ => none) (some "keep") rfl rfl rfl

/-- C9: a token variable set to the empty string is treated exactly like an
unset one: the lookup falls through to the next variable, and when every
set variable is empty no credential file is written; with the primary
variable empty and `HF_TOKEN=abc123`, the file is written with `abc123`. -/
theorem empty_token_treated_as_unset :
    (∀ env : String → Option String, env "HUGGINGFACE_ACCESS_TOKEN" = some "" →
      resolveToken env = pyOr (env "hf") (env "HF_TOKEN")) ∧
    (∀ (env : String → Option String) (envFile : Option String),
      env "HUGGINGFACE_ACCESS_TOKEN" = some "" → env "hf" = none →
      env "HF_TOKEN" = some "abc123" →
      credentialStep env envFile = some "huggingface_ACCESS_TOKEN=abc123\n") ∧
    (∀ (env : String → Option String) (envFile : Option String),
      (env "HUGGINGFACE_ACCESS_TOKEN" = none ∨ env "HUGGINGFACE_ACCESS_TOKEN" = some "") →
      (env "hf" = none ∨ env "hf" = some "") →
      (env "HF_TOKEN" = none ∨ env "HF_TOKEN" = some "") →
      credentialStep env envFile = envFile) := by
  refine ⟨?_, ?_, ?_⟩
  · intro env h
    unfold resolveToken
    rw [h, pyOr_of_falsy (some "") _ rfl]
  · intro env envFile h1 h2 h3
    unfold credentialStep resolveToken
    rw [h1, h2, h3]
    rfl
  · intro env envFile ha hb hc
    unfold credentialStep resolveToken
    rcases ha with ha | ha <;> rcases hb with hb | hb <;> rcases hc with hc | hc <;>
      (rw [ha, hb, hc]; try rfl)

theorem empty_token_treated_as_unset_witness :
    credentialStep
      (fun v => if v = "HUGGINGFACE_ACCESS_TOKEN" then some ""
        else if v = "HF_TOKEN" then some "abc123" else none) none
      = some "huggingface_ACCESS_TOKEN=abc123\n" :=
  empty_token_treated_as_unset.2.1
    (fun v => if v = "HUGGINGFACE_ACCESS_TOKEN" then some ""
      else if v = "HF_TOKEN" then some "abc123" else none) none
    (by decide) (by decide) (by decide)

/-- C10: the conversion target of a non-wav file is its own path with the
extension replaced by `.wav` — so the converted output lands on any sibling
`name.wav`, overwriting its content; concretely, a directory with
`name.mp3` and `name.wav` merges to the mp3-derived samples only, the
original `name.wav` content being lost. -/
theorem conversion_target_overwrites_sibling_wav :
    (∀ (st : MergeSt) (f : FileName) (a : List Int), pyLower f.ext ≠ "wav" →
      isFile st.dir f = true → readFile st.dir f = Content.audio a →
      readFile (normStep st f).1.dir (wavTarget f) = Content.audio a) ∧
    merge_audio_files
        [⟨⟨"name", "mp3"⟩, Content.audio [7]⟩, ⟨⟨"name", "wav"⟩, Content.audio [9]⟩]
      = ([⟨mergedName, Content.audio [7]⟩], none) := by
  constructor
  · intro st f a hext hf hread
    have hstep : normStep st f =
        (⟨unlink (writeFile st.dir (wavTarget f) (Content.audio a)) f,
          st.wavFiles ++ [wavTarget f]⟩, none) := by
      unfold normStep
      rw [if_pos ⟨hext, hf⟩, hread]
    rw [hstep]
    rw [readFile_unlink_ne _ _ _ (ne_wavTarget_of_ext f f hext).symm]
    exact readFile_writeFile_self _ _ _
  · decide

theorem conversion_target_overwrites_sibling_wav_witness :
    readFile (normStep ⟨[⟨⟨"name", "mp3"⟩, Content.audio [7]⟩,
        ⟨⟨"name", "wav"⟩, Content.audio [9]⟩], []⟩ ⟨"name", "mp3"⟩).1.dir
      (wavTarget ⟨"name", "mp3"⟩) = Content.audio [7] :=
  conversion_target_overwrites_sibling_wav.1
    ⟨[⟨⟨"name", "mp3"⟩, Content.audio [7]⟩, ⟨⟨"name", "wav"⟩, Content.audio [9]⟩], []⟩
    ⟨"name", "mp3"⟩ [7] (by decide) (by decide) (by decide)

end Voice2Value
